import Mathlib

/-!
Verification of the utility core of a Kademlia-style DHT node
(file src/utils.js of the repository).

The JavaScript source is shallowly embedded: byte buffers become
`List Nat` (each entry a byte value), strings become Lean `String`,
promises become a settle-time plus an outcome, and the retry loop
becomes a function indexed by the invocation counter.  External
dependencies that are not part of the repository (the sha2-256 hash
primitive of multihashing-async, the base32.js codec and the
xor-distance package) are modelled from the specification contract, as
noted on each definition.
-/

namespace KadUtils

/-! ## Bit-level helpers for the base32 codec -/

/-- The eight bits of a byte, most significant first. -/
def byteToBits (b : Nat) : List Bool :=
  [b / 128 % 2 == 1, b / 64 % 2 == 1, b / 32 % 2 == 1, b / 16 % 2 == 1,
   b / 8 % 2 == 1, b / 4 % 2 == 1, b / 2 % 2 == 1, b % 2 == 1]

/-- Concatenation of the bits of every byte of a buffer. -/
def bytesToBits : List Nat → List Bool
  | [] => []
  | b :: t => byteToBits b ++ bytesToBits t

/-- Big-endian numeric value of a bit string. -/
def bitsToNat (bits : List Bool) : Nat :=
  bits.foldl (fun acc b => 2 * acc + (if b then 1 else 0)) 0

/-- The five bits of a base32 digit value, most significant first. -/
def valToBits5 (v : Nat) : List Bool :=
  [v / 16 % 2 == 1, v / 8 % 2 == 1, v / 4 % 2 == 1, v / 2 % 2 == 1, v % 2 == 1]

/-- Concatenation of the bit groups of a list of base32 digit values. -/
def valsToBits : List Nat → List Bool
  | [] => []
  | v :: t => valToBits5 v ++ valsToBits t

/-- Split a bit string into consecutive groups of five bits, dropping a
final group shorter than five. -/
def chunk5 : List Bool → List (List Bool)
  | a :: b :: c :: d :: e :: rest => [a, b, c, d, e] :: chunk5 rest
  | _ => []

/-- Split a bit string into consecutive groups of eight bits, dropping a
final group shorter than eight. -/
def chunk8 : List Bool → List (List Bool)
  | a :: b :: c :: d :: e :: f :: g :: h :: rest =>
      [a, b, c, d, e, f, g, h] :: chunk8 rest
  | _ => []

/-- Zero-pad a bit string on the right up to a multiple of five bits. -/
def padTo5 (bits : List Bool) : List Bool :=
  bits ++ List.replicate ((5 - bits.length % 5) % 5) false

/-- RFC 4648 base32 alphabet used by the text codec. -/
def base32Alphabet : List Char :=
  ['A', 'B', 'C', 'D', 'E', 'F', 'G', 'H', 'I', 'J', 'K', 'L', 'M',
   'N', 'O', 'P', 'Q', 'R', 'S', 'T', 'U', 'V', 'W', 'X', 'Y', 'Z',
   '2', '3', '4', '5', '6', '7']

/-- Character of a base32 digit value. -/
def charOfVal (v : Nat) : Char :=
  base32Alphabet.getD v 'A'

/-- Position of a character in a character list, if present. -/
def indexOfChar (c : Char) : List Char → Option Nat
  | [] => none
  | a :: t => if a = c then some 0 else (indexOfChar c t).map (· + 1)

/-- Digit value of a base32 character, if it belongs to the alphabet. -/
def valOfChar (c : Char) : Option Nat :=
  indexOfChar c base32Alphabet

/-- Digit values of a character list; fails on the first character
outside the alphabet, as the base32.js decoder throws there. -/
def charsToVals : List Char → Option (List Nat)
  | [] => some []
  | c :: t =>
    match valOfChar c, charsToVals t with
    | some v, some vs => some (v :: vs)
    | _, _ => none

/-- Reassemble bytes from a bit string, dropping a trailing group of
fewer than eight bits. -/
def bitsToBytes (bits : List Bool) : List Nat :=
  (chunk8 bits).map bitsToNat

/-- Modelled from the spec: the base32 text codec is the external
base32.js package, not part of src/; the spec fixes its contract to a
lossless padding-free base32 encoding over a restricted alphabet, which
is modelled here as unpadded RFC 4648 base32.  Embeds
`exports.encodeBase32` of src/utils.js (lines 78-81). -/
def encodeBase32 (buf : List Nat) : String :=
  String.mk ((chunk5 (padTo5 (bytesToBits buf))).map (fun g => charOfVal (bitsToNat g)))

/-- Modelled from the spec: the inverse text codec of base32.js, again
external to src/.  Embeds `exports.decodeBase32` of src/utils.js
(lines 88-91); an input character outside the alphabet makes the
decoder throw, modelled as `none`. -/
def decodeBase32 (s : String) : Option (List Nat) :=
  match charsToVals s.data with
  | none => none
  | some vs => some (bitsToBytes (valsToBits vs))

/-! ## Identifiers and storage keys -/

/-- Modelled from the spec: the sha2-256 hash primitive of
multihashing-async is external to src/; the spec fixes its contract to
a deterministic function from arbitrary bytes to a fixed-length
(32-byte) digest.  The concrete mixing below is one such function. -/
def digest (buf : List Nat) : List Nat :=
  (List.range 32).map (fun i => buf.foldl (fun acc b => (acc * 31 + b) % 256) (i % 256))

/-- Embeds `exports.convertBuffer` of src/utils.js (lines 19-21):
the DHT identifier of a buffer is its sha2-256 digest. -/
def convertBuffer (buf : List Nat) : List Nat :=
  digest buf

/-- A peer reference; the field `id` holds the native identity bytes. -/
structure PeerId where
  id : List Nat
deriving DecidableEq

/-- Embeds `exports.convertPeerId` of src/utils.js (lines 29-31):
the DHT identifier of a peer is the sha2-256 digest of its id bytes. -/
def convertPeerId (p : PeerId) : List Nat :=
  digest p.id

/-- Embeds `exports.bufferToKey` of src/utils.js (lines 39-41).  The
datastore `Key` constructed with second argument `false` stores the
given string verbatim, so a key is modelled as its string. -/
def bufferToKey (buf : List Nat) : String :=
  String.append (String.mk ['/']) (encodeBase32 buf)

/-! ## Path allocator -/

/-- Embeds `exports.pathSize` of src/utils.js (lines 130-132):
`Math.ceil(resultsWanted / numPaths)`.  For a positive `numPaths` the
ceiling of the exact division equals `(r + n - 1) / n` in natural
division. -/
def pathSize (resultsWanted numPaths : Nat) : Nat :=
  (resultsWanted + numPaths - 1) / numPaths

/-! ## Distance metric and closest-peer ranking -/

/-- Modelled from the spec: the byte-wise XOR distance of the external
xor-distance package (spec section 4.2), not part of src/.  A length
mismatch makes the package throw, modelled as `none`. -/
def xorDistance (a b : List Nat) : Option (List Nat) :=
  if a.length = b.length then some (List.zipWith (fun x y => Nat.xor x y) a b) else none

/-- Pair of a peer and its distance to the target, as built inside
`sortClosestPeers` (src/utils.js lines 101-107). -/
structure PeerDist where
  peer : PeerId
  distance : List Nat
deriving DecidableEq

/-- Modelled from the spec: the unsigned big-endian magnitude
comparison of the xor-distance package (spec section 4.2), scanning
from the most significant byte.  Inside `sortClosestPeers` it is only
applied to distances of one common length (the target length), where
the length-mismatch error branch of the package is unreachable, so the
comparison is total here. -/
def cmpBytes : List Nat → List Nat → Int
  | a :: as, b :: bs => if a < b then -1 else if b < a then 1 else cmpBytes as bs
  | _, _ => 0

/-- Embeds `exports.xorCompare` of src/utils.js (lines 118-120). -/
def xorCompare (x y : PeerDist) : Int :=
  cmpBytes x.distance y.distance

/-- Insertion step of a stable insertion sort driven by the comparator:
the inserted element goes before the first element that does not
compare strictly smaller. -/
def insertSorted (a : PeerDist) : List PeerDist → List PeerDist
  | [] => [a]
  | b :: t => if xorCompare a b ≤ 0 then a :: b :: t else b :: insertSorted a t

/-- Stable sort by `xorCompare`, modelling the call
`distances.sort(exports.xorCompare)` of src/utils.js line 108;
`Array.prototype.sort` is required to be stable by the ECMAScript
standard, which a left-to-right insertion sort realises. -/
def stableSort : List PeerDist → List PeerDist
  | [] => []
  | a :: t => insertSorted a (stableSort t)

/-- XOR distance of a peer to a target as computed in
`sortClosestPeers`: the byte-wise XOR of the derived identifier of the
peer with the target. -/
def peerDistance (p : PeerId) (target : List Nat) : List Nat :=
  List.zipWith (fun x y => Nat.xor x y) (convertPeerId p) target

/-- Builds the peer and distance pairs of src/utils.js lines 101-107;
the surrounding `Promise.all` rejects, modelled as `none`, when any
distance computation throws on a length mismatch. -/
def peerDistances : List PeerId → List Nat → Option (List PeerDist)
  | [], _ => some []
  | p :: ps, target =>
    match xorDistance (convertPeerId p) target, peerDistances ps target with
    | some d, some t => some (⟨p, d⟩ :: t)
    | _, _ => none

/-- Embeds `exports.sortClosestPeers` of src/utils.js (lines 100-109). -/
def sortClosestPeers (peers : List PeerId) (target : List Nat) : Option (List PeerId) :=
  match peerDistances peers target with
  | none => none
  | some ds => some ((stableSort ds).map (fun x => x.peer))

/-! ## Resilient invoker -/

/-- A JavaScript error value: a message plus the optional `code`
property added by the err-code package. -/
structure JsError where
  message : String
  code : Option String
deriving DecidableEq

/-- Default message of the timeout rejection, src/utils.js line 193. -/
def defaultTimeoutMessage : String := "Promise timed out"

/-- The code string attached by the err-code wrapper on the timeout
rejection, src/utils.js line 193. -/
def timeoutCode : String := "ETIMEDOUT"

/-- A promise, modelled by the instant at which it settles and the
outcome it settles with. -/
structure Prom (α : Type) where
  time : Nat
  result : Except JsError α

/-- Embeds `exports.promiseTimeout` of src/utils.js (lines 186-196).
A missing or zero (falsy) timeout returns the promise itself; a
positive timeout races the promise against a timer that rejects with
an ETIMEDOUT error at `timeout` milliseconds, the side settling
earlier winning the race.  When both sides would settle at the same
instant the model lets the timer win; the claims do not touch that
tie. -/
def promiseTimeout (p : Prom α) (timeout : Option Nat) (errMsg : Option String) : Prom α :=
  match timeout with
  | none => p
  | some 0 => p
  | some (t + 1) =>
    if p.time < t + 1 then p
    else ⟨t + 1, Except.error ⟨errMsg.getD defaultTimeoutMessage, some timeoutCode⟩⟩

/-- Whether an outcome is a success. -/
def exOk : Except ε α → Bool
  | Except.ok _ => true
  | Except.error _ => false

/-- The error of a failed outcome, if any. -/
def exErr : Except ε α → Option ε
  | Except.ok _ => none
  | Except.error e => some e

/-- Loop of `exports.retry` (src/utils.js lines 210-223), embedded
with an explicit invocation counter: `fn i` is the outcome of the
`i`-th invocation of the wrapped operation (so the strictly
sequential invocations are the indices 0, 1, 2, ...), and `rem` is
the number of loop iterations still allowed after the current one
(`times - i` in the source loop).  On success the loop performs the
bare `return`, that is `undefined`, modelled as `Except.ok ()`; on a
failure in the last allowed iteration it rethrows the error of that
final invocation.  The second component counts the invocations
made. -/
def retryRun (fn : Nat → Except ε α) : Nat → Nat → Except ε Unit × Nat
  | i, 0 =>
    match fn i with
    | Except.ok _ => (Except.ok (), i + 1)
    | Except.error e => (Except.error e, i + 1)
  | i, rem + 1 =>
    match fn i with
    | Except.ok _ => (Except.ok (), i + 1)
    | Except.error _ => retryRun fn (i + 1) rem

/-- Embeds `exports.retry` of src/utils.js (lines 210-223); `times` is
`options.times`.  The constant inter-attempt delay of
`options.interval` milliseconds suspends only the caller and does not
affect any outcome, so it is not part of the model. -/
def retry (times : Nat) (fn : Nat → Except ε α) : Except ε Unit × Nat :=
  retryRun fn 0 times


/-! ## Concrete sample inputs used by the witness checks -/

/-- Error text used by the sample operations below. -/
def sampleError : String := "boom"

/-- Sample operation failing on the first two invocations, succeeding
on the third with value 5. -/
def sampleFn (i : Nat) : Except String Nat :=
  if i < 2 then Except.error sampleError else Except.ok 5

/-- Sample operation with the same failure pattern as `sampleFn` but a
success value of a different type. -/
def sampleFn2 (i : Nat) : Except String Bool :=
  if i < 2 then Except.error sampleError else Except.ok true

/-- Error text of the `i`-th invocation of `sampleAllFail`. -/
def sampleErrs (i : Nat) : String :=
  String.append sampleError (Nat.repr i)

/-- Sample operation failing on every invocation, with a distinct
error per invocation. -/
def sampleAllFail (i : Nat) : Except String Nat :=
  Except.error (sampleErrs i)

/-- A sample promise resolving with 42 after 10000 milliseconds. -/
def samplePromise : Prom Nat := ⟨10000, Except.ok 42⟩

/-- A sample promise resolving after 200 milliseconds. -/
def slowPromise : Prom Nat := ⟨200, Except.ok 1⟩

/-- A sample promise resolving after 10 milliseconds. -/
def fastPromise : Prom Nat := ⟨10, Except.ok 1⟩

/-- Two sample peers. -/
def samplePeers : List PeerId := [⟨[1]⟩, ⟨[2]⟩]

/-- A sample 32-byte target identifier. -/
def sampleTarget : List Nat := List.replicate 32 0

/-! ## Properties of the base32 codec -/


set_option maxRecDepth 4096 in
theorem bitsToNat_byteToBits : ∀ b, b < 256 → bitsToNat (byteToBits b) = b := by
  decide

theorem valToBits5_bitsToNat : ∀ (a b c d e : Bool),
    valToBits5 (bitsToNat [a, b, c, d, e]) = [a, b, c, d, e] := by
  decide

theorem bitsToNat_lt_32 : ∀ (a b c d e : Bool), bitsToNat [a, b, c, d, e] < 32 := by
  decide

theorem valOfChar_charOfVal : ∀ v, v < 32 → valOfChar (charOfVal v) = some v := by
  decide

theorem chunk8_short (l : List Bool) (h : l.length < 8) : chunk8 l = [] := by
  rcases l with _ | ⟨a, l⟩; · rfl
  rcases l with _ | ⟨b, l⟩; · rfl
  rcases l with _ | ⟨c, l⟩; · rfl
  rcases l with _ | ⟨d, l⟩; · rfl
  rcases l with _ | ⟨e, l⟩; · rfl
  rcases l with _ | ⟨f, l⟩; · rfl
  rcases l with _ | ⟨g, l⟩; · rfl
  rcases l with _ | ⟨x, l⟩; · rfl
  simp only [List.length_cons] at h
  omega

theorem chunk8_byteToBits (b : Nat) (l : List Bool) :
    chunk8 (byteToBits b ++ l) = byteToBits b :: chunk8 l := rfl

theorem bitsToBytes_bytesToBits (buf : List Nat) (extra : List Bool)
    (hb : ∀ b ∈ buf, b < 256) (he : extra.length < 8) :
    bitsToBytes (bytesToBits buf ++ extra) = buf := by
  induction buf with
  | nil => simp [bytesToBits, bitsToBytes, chunk8_short extra he]
  | cons b t ih =>
      have hb0 : b < 256 := hb b (by simp)
      have hbt : ∀ x ∈ t, x < 256 := fun x hx => hb x (by simp [hx])
      calc bitsToBytes (bytesToBits (b :: t) ++ extra)
          = bitsToBytes (byteToBits b ++ (bytesToBits t ++ extra)) := by
            simp [bytesToBits, List.append_assoc]
        _ = bitsToNat (byteToBits b) :: bitsToBytes (bytesToBits t ++ extra) := by
            simp [bitsToBytes, chunk8_byteToBits]
        _ = b :: t := by rw [bitsToNat_byteToBits b hb0, ih hbt]

theorem valsToBits_chunk5 : ∀ (n : Nat) (l : List Bool), l.length ≤ n → l.length % 5 = 0 →
    valsToBits ((chunk5 l).map bitsToNat) = l := by
  intro n
  induction n with
  | zero =>
      intro l hlen _
      have hnil : l = [] := List.eq_nil_of_length_eq_zero (Nat.le_zero.mp hlen)
      subst hnil; rfl
  | succ n ih =>
      intro l hlen h5
      rcases l with _ | ⟨a, l⟩; · rfl
      rcases l with _ | ⟨b, l⟩; · simp at h5
      rcases l with _ | ⟨c, l⟩; · simp at h5
      rcases l with _ | ⟨d, l⟩; · simp at h5
      rcases l with _ | ⟨e, l⟩; · simp at h5
      have h5a : l.length % 5 = 0 := by simp at h5; omega
      have hlen2 : l.length ≤ n := by simp at hlen; omega
      simp [chunk5, valsToBits, valToBits5_bitsToNat, ih l hlen2 h5a]

theorem mem_chunk5 : ∀ (n : Nat) (l g : List Bool), l.length ≤ n → g ∈ chunk5 l →
    ∃ a b c d e, g = [a, b, c, d, e] := by
  intro n
  induction n with
  | zero =>
      intro l g hlen hg
      have hnil : l = [] := List.eq_nil_of_length_eq_zero (Nat.le_zero.mp hlen)
      subst hnil; simp [chunk5] at hg
  | succ n ih =>
      intro l g hlen hg
      rcases l with _ | ⟨a, l⟩; · simp [chunk5] at hg
      rcases l with _ | ⟨b, l⟩; · simp [chunk5] at hg
      rcases l with _ | ⟨c, l⟩; · simp [chunk5] at hg
      rcases l with _ | ⟨d, l⟩; · simp [chunk5] at hg
      rcases l with _ | ⟨e, l⟩; · simp [chunk5] at hg
      rw [chunk5] at hg
      rcases List.mem_cons.mp hg with hgh | hgt
      · exact ⟨a, b, c, d, e, hgh⟩
      · exact ih l g (by simp at hlen; omega) hgt

theorem charsToVals_map_charOfVal : ∀ (vs : List Nat), (∀ v ∈ vs, v < 32) →
    charsToVals (vs.map charOfVal) = some vs := by
  intro vs
  induction vs with
  | nil => intro _; rfl
  | cons v t ih =>
      intro h
      have hv := h v (by simp)
      have ht : ∀ x ∈ t, x < 32 := fun x hx => h x (by simp [hx])
      simp [charsToVals, valOfChar_charOfVal v hv, ih ht]

theorem decodeBase32_encodeBase32 (buf : List Nat) (hb : ∀ b ∈ buf, b < 256) :
    decodeBase32 (encodeBase32 buf) = some buf := by
  have hpadlen : (padTo5 (bytesToBits buf)).length % 5 = 0 := by
    simp [padTo5]; omega
  have hvals : ∀ v ∈ (chunk5 (padTo5 (bytesToBits buf))).map bitsToNat, v < 32 := by
    intro v hv
    rcases List.mem_map.mp hv with ⟨g, hg, hgv⟩
    obtain ⟨a, b, c, d, e, hge⟩ :=
      mem_chunk5 (padTo5 (bytesToBits buf)).length (padTo5 (bytesToBits buf)) g
        (Nat.le_refl _) hg
    subst hge
    rw [← hgv]
    exact bitsToNat_lt_32 a b c d e
  have hmap : (chunk5 (padTo5 (bytesToBits buf))).map (fun g => charOfVal (bitsToNat g))
      = ((chunk5 (padTo5 (bytesToBits buf))).map bitsToNat).map charOfVal := by
    simp [List.map_map]
  have hcv : charsToVals ((chunk5 (padTo5 (bytesToBits buf))).map
      (fun g => charOfVal (bitsToNat g)))
      = some ((chunk5 (padTo5 (bytesToBits buf))).map bitsToNat) := by
    rw [hmap]
    exact charsToVals_map_charOfVal _ hvals
  have hvb : valsToBits ((chunk5 (padTo5 (bytesToBits buf))).map bitsToNat)
      = padTo5 (bytesToBits buf) :=
    valsToBits_chunk5 (padTo5 (bytesToBits buf)).length _ (Nat.le_refl _) hpadlen
  have hfinal : bitsToBytes (padTo5 (bytesToBits buf)) = buf := by
    rw [padTo5]
    exact bitsToBytes_bytesToBits buf _ hb (by simp; omega)
  simp only [decodeBase32, encodeBase32]
  rw [hcv]
  simp only [hvb, hfinal]

/-! ## Lemmas on the comparator and the sort -/

theorem digest_length (buf : List Nat) : (digest buf).length = 32 := by
  simp [digest]

theorem cmpBytes_self : ∀ (a : List Nat), cmpBytes a a = 0
  | [] => rfl
  | x :: t => by simp [cmpBytes, cmpBytes_self t]

theorem cmpBytes_antisymm (a : List Nat) : ∀ (b : List Nat), cmpBytes a b = -cmpBytes b a := by
  induction a with
  | nil => intro b; cases b <;> rfl
  | cons x as ih =>
      intro b
      cases b with
      | nil => rfl
      | cons y bs =>
          simp only [cmpBytes]
          split_ifs <;> first | omega | simpa using ih bs

theorem cmpBytes_trans (a : List Nat) : ∀ (b c : List Nat), a.length = b.length →
    b.length = c.length → cmpBytes a b ≤ 0 → cmpBytes b c ≤ 0 → cmpBytes a c ≤ 0 := by
  induction a with
  | nil => intro b c _ _ _ _; simp [cmpBytes]
  | cons x as ih =>
      intro b c hab hbc h1 h2
      cases b with
      | nil => simp at hab
      | cons y bs =>
          cases c with
          | nil => simp at hbc
          | cons z cs =>
              have hab' : as.length = bs.length := by simpa using hab
              have hbc' : bs.length = cs.length := by simpa using hbc
              simp only [cmpBytes] at h1 h2 ⊢
              split_ifs at h1 h2 ⊢ <;>
                first | omega | exact ih bs cs hab' hbc' h1 h2

theorem insertSorted_perm (a : PeerDist) : ∀ (l : List PeerDist),
    (insertSorted a l).Perm (a :: l)
  | [] => List.Perm.refl _
  | b :: t => by
      rw [insertSorted]
      split
      · exact List.Perm.refl _
      · exact ((insertSorted_perm a t).cons b).trans (List.Perm.swap a b t)

theorem stableSort_perm : ∀ (l : List PeerDist), (stableSort l).Perm l
  | [] => List.Perm.refl _
  | a :: t => by
      rw [stableSort]
      exact (insertSorted_perm a (stableSort t)).trans ((stableSort_perm t).cons a)

theorem insertSorted_pairwise (a : PeerDist) (l : List PeerDist)
    (hlen : ∀ x ∈ a :: l, x.distance.length = 32)
    (hs : l.Pairwise (fun x y => xorCompare x y ≤ 0)) :
    (insertSorted a l).Pairwise (fun x y => xorCompare x y ≤ 0) := by
  induction l with
  | nil => simp [insertSorted]
  | cons b t ih =>
      rcases List.pairwise_cons.mp hs with ⟨hb, ht⟩
      have hlena : a.distance.length = 32 := hlen a (by simp)
      have hlenb : b.distance.length = 32 := hlen b (by simp)
      by_cases hab : xorCompare a b ≤ 0
      · rw [insertSorted, if_pos hab]
        refine List.pairwise_cons.mpr ⟨?_, hs⟩
        intro y hy
        rcases List.mem_cons.mp hy with rfl | hyt
        · exact hab
        · have hleny : y.distance.length = 32 := hlen y (by simp [hyt])
          exact cmpBytes_trans a.distance b.distance y.distance
            (by rw [hlena, hlenb]) (by rw [hlenb, hleny]) hab (hb y hyt)
      · rw [insertSorted, if_neg hab]
        have hlen' : ∀ x ∈ a :: t, x.distance.length = 32 := by
          intro x hx
          rcases List.mem_cons.mp hx with rfl | hxt
          · exact hlena
          · exact hlen x (by simp [hxt])
        refine List.pairwise_cons.mpr ⟨?_, ih hlen' ht⟩
        intro y hy
        have hy' : y = a ∨ y ∈ t := by
          have hmem : y ∈ a :: t := (insertSorted_perm a t).mem_iff.mp hy
          simpa using hmem
        rcases hy' with heq | hyt
        · have hanti := cmpBytes_antisymm a.distance b.distance
          unfold xorCompare at hab ⊢
          rw [heq]
          omega
        · exact hb y hyt

theorem stableSort_pairwise (l : List PeerDist)
    (hlen : ∀ x ∈ l, x.distance.length = 32) :
    (stableSort l).Pairwise (fun x y => xorCompare x y ≤ 0) := by
  induction l with
  | nil => simp [stableSort]
  | cons a t ih =>
      rw [stableSort]
      have hlent : ∀ x ∈ t, x.distance.length = 32 := fun x hx => hlen x (by simp [hx])
      apply insertSorted_pairwise
      · intro x hx
        rcases List.mem_cons.mp hx with rfl | hxs
        · exact hlen x (by simp)
        · exact hlent x ((stableSort_perm t).mem_iff.mp hxs)
      · exact ih hlent

theorem insertSorted_filter_pos (a : PeerDist) (d : List Nat) (ha : a.distance = d) :
    ∀ (l : List PeerDist),
      (insertSorted a l).filter (fun x => x.distance = d)
        = a :: l.filter (fun x => x.distance = d)
  | [] => by simp [insertSorted, ha]
  | b :: t => by
      rw [insertSorted]
      split_ifs with hab
      · simp [ha]
      · have hbd : b.distance ≠ d := by
          intro hbd
          apply hab
          unfold xorCompare
          rw [ha, hbd, cmpBytes_self]
        rw [List.filter_cons, List.filter_cons, if_neg (by simp [hbd]),
          if_neg (by simp [hbd]), insertSorted_filter_pos a d ha t]

theorem insertSorted_filter_neg (a : PeerDist) (d : List Nat) (ha : a.distance ≠ d) :
    ∀ (l : List PeerDist),
      (insertSorted a l).filter (fun x => x.distance = d)
        = l.filter (fun x => x.distance = d)
  | [] => by simp [insertSorted, ha]
  | b :: t => by
      rw [insertSorted]
      split_ifs with hab
      · simp [ha]
      · rw [List.filter_cons, List.filter_cons, insertSorted_filter_neg a d ha t]

theorem stableSort_filter (d : List Nat) : ∀ (l : List PeerDist),
    (stableSort l).filter (fun x => x.distance = d)
      = l.filter (fun x => x.distance = d)
  | [] => rfl
  | a :: t => by
      rw [stableSort]
      by_cases ha : a.distance = d
      · rw [insertSorted_filter_pos a d ha, stableSort_filter d t, List.filter_cons]
        simp [ha]
      · rw [insertSorted_filter_neg a d ha, stableSort_filter d t, List.filter_cons]
        simp [ha]

theorem peerDistance_length (p : PeerId) (target : List Nat) (ht : target.length = 32) :
    (peerDistance p target).length = 32 := by
  simp [peerDistance, convertPeerId, digest_length, ht]

theorem peerDistances_eq (peers : List PeerId) (target : List Nat) (ht : target.length = 32) :
    peerDistances peers target
      = some (peers.map (fun p => PeerDist.mk p (peerDistance p target))) := by
  induction peers with
  | nil => rfl
  | cons p ps ih =>
      have hx : xorDistance (convertPeerId p) target = some (peerDistance p target) := by
        simp [xorDistance, convertPeerId, digest_length, ht, peerDistance]
      simp [peerDistances, hx, ih]

theorem zipWith_xor_self : ∀ (a : List Nat),
    List.zipWith (fun x y => Nat.xor x y) a a = List.replicate a.length 0
  | [] => rfl
  | x :: t => by
      simp only [List.zipWith_cons_cons, List.length_cons, List.replicate_succ]
      rw [zipWith_xor_self t]
      exact congrArg (· :: List.replicate t.length 0) (Nat.xor_self x)

theorem cmpBytes_replicate_zero_le : ∀ (n : Nat) (d : List Nat),
    cmpBytes (List.replicate n 0) d ≤ 0
  | 0, _ => by simp [cmpBytes]
  | _ + 1, [] => by simp [List.replicate, cmpBytes]
  | n + 1, x :: t => by
      simp only [List.replicate]
      rw [cmpBytes]
      split_ifs <;> first | omega | exact cmpBytes_replicate_zero_le n t

theorem retryRun_count (fn : Nat → Except ε α) :
    ∀ (rem i : Nat), (retryRun fn i rem).2 ≤ i + rem + 1 := by
  intro rem
  induction rem with
  | zero =>
      intro i
      rw [retryRun]
      cases fn i <;> simp
  | succ rem ih =>
      intro i
      rw [retryRun]
      cases fn i with
      | ok a => simp
      | error e =>
          have := ih (i + 1)
          simpa [Nat.add_assoc] using Nat.le_trans this (by omega)

theorem retryRun_first_success (fn : Nat → Except ε α) :
    ∀ (rem i k : Nat), i ≤ k → k ≤ i + rem →
      (∀ j, i ≤ j → j < k → exOk (fn j) = false) → exOk (fn k) = true →
      retryRun fn i rem = (Except.ok (), k + 1) := by
  intro rem
  induction rem with
  | zero =>
      intro i k hik hki _ hk
      have hike : i = k := by omega
      subst hike
      rw [retryRun]
      cases hfn : fn i with
      | ok a => rfl
      | error e => rw [hfn] at hk; simp [exOk] at hk
  | succ rem ih =>
      intro i k hik hki hfail hk
      rw [retryRun]
      rcases Nat.eq_or_lt_of_le hik with hike | hlt
      · subst hike
        cases hfn : fn i with
        | ok a => rfl
        | error e => rw [hfn] at hk; simp [exOk] at hk
      · cases hfn : fn i with
        | ok a =>
            have := hfail i (Nat.le_refl i) hlt
            rw [hfn] at this
            simp [exOk] at this
        | error e =>
            exact ih (i + 1) k hlt (by omega)
              (fun j hj hjk => hfail j (by omega) hjk) hk

theorem retryRun_all_fail (fn : Nat → Except ε α) (es : Nat → ε) :
    ∀ (rem i : Nat), (∀ j, i ≤ j → j ≤ i + rem → fn j = Except.error (es j)) →
      retryRun fn i rem = (Except.error (es (i + rem)), i + rem + 1) := by
  intro rem
  induction rem with
  | zero =>
      intro i hf
      rw [retryRun, hf i (Nat.le_refl i) (by omega)]
      simp
  | succ rem ih =>
      intro i hf
      rw [retryRun, hf i (Nat.le_refl i) (by omega),
        ih (i + 1) (fun j hj hj2 => hf j (by omega) (by omega))]
      have heq : i + 1 + rem = i + (rem + 1) := by omega
      simp [heq]

theorem retryRun_shape_congr (fn : Nat → Except ε α) (gn : Nat → Except ε β) :
    ∀ (rem i : Nat),
      (∀ j, i ≤ j → j ≤ i + rem → exOk (fn j) = exOk (gn j) ∧ exErr (fn j) = exErr (gn j)) →
      retryRun fn i rem = retryRun gn i rem := by
  intro rem
  induction rem with
  | zero =>
      intro i h
      obtain ⟨hok, herr⟩ := h i (Nat.le_refl i) (by omega)
      rw [retryRun, retryRun]
      cases hfn : fn i with
      | ok a =>
          cases hgn : gn i with
          | ok b => rfl
          | error e => rw [hfn, hgn] at hok; simp [exOk] at hok
      | error e =>
          cases hgn : gn i with
          | ok b => rw [hfn, hgn] at hok; simp [exOk] at hok
          | error e2 =>
              rw [hfn, hgn] at herr
              simp [exErr] at herr
              rw [herr]
  | succ rem ih =>
      intro i h
      obtain ⟨hok, herr⟩ := h i (Nat.le_refl i) (by omega)
      rw [retryRun, retryRun]
      cases hfn : fn i with
      | ok a =>
          cases hgn : gn i with
          | ok b => rfl
          | error e => rw [hfn, hgn] at hok; simp [exOk] at hok
      | error e =>
          cases hgn : gn i with
          | ok b => rw [hfn, hgn] at hok; simp [exOk] at hok
          | error e2 => exact ih (i + 1) (fun j hj hj2 => h j (by omega) (by omega))


/-! ## The claims -/

/-- Claim C1 counterexample: at the empty buffer the storage key
produced by `bufferToKey` is not a slash followed by the base32 text
of the hashed identifier `convertBuffer []`; the function encodes the
raw buffer, not its hash. -/
theorem c1_counterexample :
    ¬ (bufferToKey [] = String.append (String.mk ['/']) (encodeBase32 (convertBuffer []))) := by
  decide

/-- Claim C1 (amended): for every byte buffer the storage key equals a
slash followed by the base32 text of the raw buffer itself, a text
that decodes back to the raw buffer; no hashing is involved. -/
theorem c1_storage_key (buf : List Nat) (h : ∀ b ∈ buf, b < 256) :
    bufferToKey buf = String.append (String.mk ['/']) (encodeBase32 buf)
      ∧ decodeBase32 (encodeBase32 buf) = some buf :=
  ⟨rfl, decodeBase32_encodeBase32 buf h⟩

/-- Claim C1 witness at the concrete buffer [1, 2, 3]. -/
theorem c1_witness :
    bufferToKey [1, 2, 3] = String.append (String.mk ['/']) (encodeBase32 [1, 2, 3])
      ∧ decodeBase32 (encodeBase32 [1, 2, 3]) = some [1, 2, 3] :=
  c1_storage_key [1, 2, 3] (by decide)

/-- Claim C2: on a 32-byte target, `sortClosestPeers` returns a
permutation of the input peers, ordered ascending by the XOR distance
of each derived identifier to the target (so the first distance is
less than or equal to every later one), and peers at equal distance
keep their relative input order, stated per distance class. -/
theorem c2_sortClosestPeers (peers : List PeerId) (target : List Nat)
    (ht : target.length = 32) :
    ∃ out, sortClosestPeers peers target = some out
      ∧ out.Perm peers
      ∧ out.Pairwise (fun p q =>
          cmpBytes (peerDistance p target) (peerDistance q target) ≤ 0)
      ∧ (∀ d, out.filter (fun p => peerDistance p target = d)
          = peers.filter (fun p => peerDistance p target = d)) := by
  have hinv : ∀ x ∈ stableSort (peers.map (fun p => PeerDist.mk p (peerDistance p target))),
      x.distance = peerDistance x.peer target := by
    intro x hx
    have hx2 : x ∈ peers.map (fun p => PeerDist.mk p (peerDistance p target)) :=
      (stableSort_perm _).mem_iff.mp hx
    rcases List.mem_map.mp hx2 with ⟨p, hp, rfl⟩
    rfl
  have hlen : ∀ x ∈ peers.map (fun p => PeerDist.mk p (peerDistance p target)),
      x.distance.length = 32 := by
    intro x hx
    rcases List.mem_map.mp hx with ⟨p, hp, rfl⟩
    exact peerDistance_length p target ht
  refine ⟨(stableSort (peers.map (fun p => PeerDist.mk p (peerDistance p target)))).map
      (fun x => x.peer), ?_, ?_, ?_, ?_⟩
  · simp [sortClosestPeers, peerDistances_eq peers target ht]
  · have hperm :=
      (stableSort_perm (peers.map (fun p => PeerDist.mk p (peerDistance p target)))).map
        (fun x => x.peer)
    have hid : (peers.map (fun p => PeerDist.mk p (peerDistance p target))).map
        (fun x => x.peer) = peers := by
      rw [List.map_map]
      have hcomp : ((fun x => x.peer) ∘ fun p => PeerDist.mk p (peerDistance p target))
          = id := rfl
      rw [hcomp, List.map_id]
    rw [hid] at hperm
    exact hperm
  · have hp := stableSort_pairwise (peers.map (fun p => PeerDist.mk p (peerDistance p target))) hlen
    rw [List.pairwise_map]
    refine hp.imp_of_mem ?_
    intro x y hx hy hxy
    have h1 := hinv x hx
    have h2 := hinv y hy
    unfold xorCompare at hxy
    rw [← h1, ← h2]
    exact hxy
  · intro d
    rw [List.filter_map]
    have hflt : (stableSort (peers.map (fun p => PeerDist.mk p (peerDistance p target)))).filter
        ((fun p => decide (peerDistance p target = d)) ∘ (fun x => x.peer))
        = (stableSort (peers.map (fun p => PeerDist.mk p (peerDistance p target)))).filter
          (fun x => decide (x.distance = d)) := by
      apply List.filter_congr
      intro x hx
      simp only [Function.comp]
      rw [← hinv x hx]
    rw [hflt, stableSort_filter d, List.filter_map, List.map_map]
    have hc1 : ((fun x => x.peer) ∘ fun p => PeerDist.mk p (peerDistance p target))
        = id := rfl
    have hc2 : ((fun x => decide (x.distance = d)) ∘ fun p => PeerDist.mk p (peerDistance p target))
        = (fun p => decide (peerDistance p target = d)) := rfl
    rw [hc1, hc2, List.map_id]

/-- Claim C2 witness: on two sample peers and a concrete 32-byte
target the sort succeeds. -/
theorem c2_witness :
    sampleTarget.length = 32 ∧ (sortClosestPeers samplePeers sampleTarget).isSome = true := by
  have h : sampleTarget.length = 32 := by decide
  refine ⟨h, ?_⟩
  obtain ⟨out, hout, h2, h3, h4⟩ := c2_sortClosestPeers samplePeers sampleTarget h
  rw [hout]
  rfl

/-- Claim C3: `retry` makes at most times + 1 invocations of the
strictly sequential sequence fn 0, fn 1, ..., the first successful
invocation ends the loop immediately with no further invocations, and
times = 0 yields exactly one invocation. -/
theorem c3_retry_attempts (times : Nat) (fn : Nat → Except ε α) :
    (retry times fn).2 ≤ times + 1
      ∧ (times = 0 → (retry times fn).2 = 1)
      ∧ (∀ k, k ≤ times → (∀ j, j < k → exOk (fn j) = false) → exOk (fn k) = true →
          retry times fn = (Except.ok (), k + 1)) := by
  refine ⟨?_, ?_, ?_⟩
  · have h := retryRun_count fn times 0
    simpa [retry] using h
  · intro h0
    subst h0
    unfold retry
    rw [retryRun]
    rcases hfn : fn 0 with a | e <;> rfl
  · intro k hk hfail hsucc
    unfold retry
    exact retryRun_first_success fn times 0 k (Nat.zero_le k) (by omega)
      (fun j hj hjk => hfail j hjk) hsucc

/-- Claim C3 witness: with times = 2 and an operation first succeeding
at invocation 2, `retry` returns success after exactly 3
invocations. -/
theorem c3_witness : retry 2 sampleFn = (Except.ok (), 3) :=
  (c3_retry_attempts 2 sampleFn).2.2 2 (Nat.le_refl 2) (by decide) (by decide)

/-- Claim C4: when every invocation fails, `retry` rejects with
exactly the error object of the final invocation (invocation `times`)
after times + 1 invocations; the errors of the earlier invocations
are suppressed. -/
theorem c4_retry_final_error (times : Nat) (fn : Nat → Except ε α) (es : Nat → ε)
    (h : ∀ j, j ≤ times → fn j = Except.error (es j)) :
    retry times fn = (Except.error (es times), times + 1) := by
  unfold retry
  have hrun := retryRun_all_fail fn es times 0 (fun j hj hj2 => h j (by omega))
  simpa using hrun

/-- Claim C4 witness: an always-failing operation with times = 1 gives
the error of invocation 1 after 2 invocations. -/
theorem c4_witness : retry 1 sampleAllFail = (Except.error (sampleErrs 1), 2) :=
  c4_retry_final_error 1 sampleAllFail sampleErrs (by
    intro j hj
    interval_cases j <;> rfl)

/-- Claim C5: a missing or zero (falsy) timeout returns the promise
itself: no timer, no timeout failure, the own outcome unchanged
however late the promise settles. -/
theorem c5_promiseTimeout_falsy {α : Type} (p : Prom α) (t : Option Nat)
    (msg : Option String) (h : t = none ∨ t = some 0) :
    promiseTimeout p t msg = p := by
  rcases h with rfl | rfl <;> rfl

/-- Claim C5 witness: zero timeout on a promise settling only after
10000 milliseconds still returns that promise unchanged. -/
theorem c5_witness : promiseTimeout samplePromise (some 0) none = samplePromise :=
  c5_promiseTimeout_falsy samplePromise (some 0) none (Or.inr rfl)

/-- Claim C6: with a positive timeout the promise is raced against a
timer: the timer firing strictly first rejects with the recognizable
ETIMEDOUT error carrying the given message or its default; the promise
settling strictly first gives the own outcome of the promise. -/
theorem c6_promiseTimeout_race {α : Type} (p : Prom α) (T : Nat) (msg : Option String)
    (hT : 0 < T) :
    (T < p.time → promiseTimeout p (some T) msg
        = ⟨T, Except.error ⟨msg.getD defaultTimeoutMessage, some timeoutCode⟩⟩)
      ∧ (p.time < T → promiseTimeout p (some T) msg = p) := by
  obtain ⟨t, rfl⟩ : ∃ t, T = t + 1 := ⟨T - 1, by omega⟩
  constructor
  · intro h
    simp only [promiseTimeout]
    rw [if_neg (by omega)]
  · intro h
    simp only [promiseTimeout]
    rw [if_pos h]

/-- Claim C6 witness, mirroring the example of the spec: a 50ms
timeout over a 200ms promise yields the timeout failure, over a 10ms
promise the own outcome of the promise. -/
theorem c6_witness :
    promiseTimeout slowPromise (some 50) none
        = ⟨50, Except.error ⟨defaultTimeoutMessage, some timeoutCode⟩⟩
      ∧ promiseTimeout fastPromise (some 50) none = fastPromise :=
  ⟨(c6_promiseTimeout_race slowPromise 50 none (by decide)).1 (by decide),
   (c6_promiseTimeout_race fastPromise 50 none (by decide)).2 (by decide)⟩

/-- Claim C7: for a positive number of paths, `pathSize` computes the
ceiling of the division: the least q with q * numPaths at least
resultsWanted, with the particular values 0, identity on one path,
10 over 3 paths and 9 over 3 paths as required. -/
theorem c7_pathSize (r n : Nat) (hn : 0 < n) :
    r ≤ pathSize r n * n
      ∧ (∀ q, r ≤ q * n → pathSize r n ≤ q)
      ∧ pathSize 0 n = 0
      ∧ pathSize r 1 = r
      ∧ pathSize 10 3 = 4
      ∧ pathSize 9 3 = 3 := by
  refine ⟨?_, ?_, ?_, ?_, by decide, by decide⟩
  · have h : r ≤ n • (r ⌈/⌉ n) := le_smul_ceilDiv hn
    rw [smul_eq_mul] at h
    rw [show pathSize r n = r ⌈/⌉ n from rfl, Nat.mul_comm]
    exact h
  · intro q hq
    rw [show pathSize r n = r ⌈/⌉ n from rfl]
    refine (ceilDiv_le_iff_le_mul hn).mpr ?_
    rw [Nat.mul_comm] at hq
    exact hq
  · show (0 + n - 1) / n = 0
    apply Nat.div_eq_of_lt
    omega
  · show (r + 1 - 1) / 1 = r
    simp

/-- Claim C7 witness at resultsWanted = 10 and numPaths = 3. -/
theorem c7_witness :
    10 ≤ pathSize 10 3 * 3 ∧ pathSize 10 3 ≤ 4 ∧ pathSize 0 3 = 0 :=
  ⟨(c7_pathSize 10 3 (by decide)).1,
   (c7_pathSize 10 3 (by decide)).2.1 4 (by decide),
   (c7_pathSize 10 3 (by decide)).2.2.1⟩

/-- Claim C8: decoding the base32 encoding of any valid byte sequence
returns the original sequence: the text codec is lossless and decoding
is its exact inverse. -/
theorem c8_roundtrip (x : List Nat) (h : ∀ b ∈ x, b < 256) :
    decodeBase32 (encodeBase32 x) = some x :=
  decodeBase32_encodeBase32 x h

/-- Claim C8 witness at a concrete byte sequence. -/
theorem c8_witness : decodeBase32 (encodeBase32 [0, 255, 16]) = some [0, 255, 16] :=
  c8_roundtrip [0, 255, 16] (by decide)

/-- Claim C9: on equal-length identifiers the XOR distance commutes,
the self distance is the all-zero sequence of the same length, and
the all-zero sequence is minimal under the big-endian magnitude
comparison. -/
theorem c9_xorDistance (a b : List Nat) (h : a.length = b.length) :
    xorDistance a b = xorDistance b a
      ∧ xorDistance a a = some (List.replicate a.length 0)
      ∧ (∀ d, cmpBytes (List.replicate a.length 0) d ≤ 0) := by
  refine ⟨?_, ?_, fun d => cmpBytes_replicate_zero_le a.length d⟩
  · unfold xorDistance
    rw [if_pos h, if_pos h.symm]
    exact congrArg some (List.zipWith_comm_of_comm _ Nat.xor_comm a b)
  · unfold xorDistance
    rw [if_pos rfl, zipWith_xor_self]

/-- Claim C9 witness at concrete identifiers of length two. -/
theorem c9_witness :
    xorDistance [1, 2] [3, 4] = xorDistance [3, 4] [1, 2]
      ∧ xorDistance [1, 2] [1, 2] = some (List.replicate 2 0)
      ∧ cmpBytes (List.replicate 2 0) [7, 7] ≤ 0 :=
  ⟨(c9_xorDistance [1, 2] [3, 4] (by decide)).1,
   (c9_xorDistance [1, 2] [3, 4] (by decide)).2.1,
   (c9_xorDistance [1, 2] [3, 4] (by decide)).2.2 [7, 7]⟩

/-- Claim C10: the success value of the wrapped operation never
reaches the caller of `retry`: two operations with the same failure
pattern and the same errors but different success values (even of
different types) give identical results, the successful result being
the unit value that models the bare `return` of `undefined`. -/
theorem c10_retry_discards (times : Nat) (fn : Nat → Except ε α) (gn : Nat → Except ε β)
    (h : ∀ i, i ≤ times → exOk (fn i) = exOk (gn i) ∧ exErr (fn i) = exErr (gn i)) :
    retry times fn = retry times gn := by
  unfold retry
  exact retryRun_shape_congr fn gn times 0 (fun j hj hj2 => h j (by omega))

/-- Claim C10 witness: two operations differing only in their success
values, 5 of type Nat against true of type Bool, produce identical
`retry` results. -/
theorem c10_witness : retry 2 sampleFn = retry 2 sampleFn2 :=
  c10_retry_discards 2 sampleFn sampleFn2 (by decide)

end KadUtils
